import Mathlib

/-!
Verification development for the PGalyzer text-analysis tool
(src/pgalyzer.py).  Text is modelled as `List Char`; Python strings
become character lists, Python dict/Counter results become association
lists, and code that can raise becomes `Option`-valued.  Every
definition below is a direct shallow embedding of the corresponding
Python construct; definitions whose doc comment says so follow the
wording of the specification instead, for refinement comparisons.
-/

namespace PG

/-! ## Splitting primitives -/

/-- Embeds Python `s.split('\n')` (keeps empty segments): auxiliary
with an accumulator holding the current segment reversed. -/
def splitOnNLAux (acc : List Char) : List Char → List (List Char)
  | [] => [acc.reverse]
  | c :: rest =>
      if c = '\n' then acc.reverse :: splitOnNLAux [] rest
      else splitOnNLAux (c :: acc) rest

/-- Python `s.split('\n')`. -/
def splitOnNL (s : List Char) : List (List Char) := splitOnNLAux [] s

/-- Embeds Python `s.split()` (whitespace split, no empty tokens):
auxiliary with an accumulator holding the current token reversed. -/
def splitWSAux (acc : List Char) : List Char → List (List Char)
  | [] => if acc = [] then [] else [acc.reverse]
  | c :: rest =>
      if c.isWhitespace then
        if acc = [] then splitWSAux [] rest
        else acc.reverse :: splitWSAux [] rest
      else splitWSAux (c :: acc) rest

/-- Python `s.split()`. -/
def splitWS (s : List Char) : List (List Char) := splitWSAux [] s

/-- Python `' '.join(tokens)`. -/
def joinSpace (ts : List (List Char)) : List Char := List.intercalate [' '] ts

/-! ## The cleaning pipeline of `PGalyzer.__init__` (`clean_pg=True`) -/

/-- Python `file.lower()` applied characterwise. -/
def lowerStr (s : List Char) : List Char := s.map Char.toLower

/-- Embeds Python `s.split('\n\n')` (paragraph blocks): greedy
leftmost non-overlapping split on two consecutive newlines. -/
def splitParaAux (acc : List Char) : List Char → List (List Char)
  | c1 :: c2 :: rest =>
      if c1 = '\n' ∧ c2 = '\n' then acc.reverse :: splitParaAux [] rest
      else splitParaAux (c1 :: acc) (c2 :: rest)
  | [c] => [(c :: acc).reverse]
  | [] => [acc.reverse]

/-- Python `file.split('\n\n')`. -/
def splitPara (s : List Char) : List (List Char) := splitParaAux [] s

/-- The header marker of `PGalyzer.__init__`. -/
def headMarker : List Char := "*** start of this project gutenberg ebook".toList

/-- The footer marker of `PGalyzer.__init__`. -/
def footMarker : List Char := "*** end of this project gutenberg ebook".toList

/-- Header removal: first block starting with the marker and every
block before it are deleted (`del file[:ix+1]`); no marker, no change. -/
def dropHeader (blocks : List (List Char)) : List (List Char) :=
  match blocks.findIdx? (fun b => headMarker.isPrefixOf b) with
  | some ix => blocks.drop (ix + 1)
  | none => blocks

/-- Footer removal: scanning from the end (`file[::-1]`), the first
block starting with the marker and everything after it are deleted
(`del file[-(ix+1):]`); no marker, no change. -/
def dropFooter (blocks : List (List Char)) : List (List Char) :=
  match blocks.reverse.findIdx? (fun b => footMarker.isPrefixOf b) with
  | some ix => blocks.take (blocks.length - (ix + 1))
  | none => blocks

/-- The punctuation set `'|;,.:?!"()[]{}/\\-+'` of the cleaning code. -/
def punct : List Char :=
  ['|', ';', ',', '.', ':', '?', '!', Char.ofNat 34, '(', ')', '[', ']',
   '\x7b', '\x7d', '/', '\\', '-', '+']

/-- Python `text.strip('\n')`: newline characters removed from both ends. -/
def stripNL (s : List Char) : List Char :=
  ((s.dropWhile (fun c => c = '\n')).reverse.dropWhile (fun c => c = '\n')).reverse

/-- The per-block body of the cleaning loop, before the trailing newline
is appended: `text.strip('\n').replace('\n', ' ')` followed by deleting
every punctuation character (`text.replace(p, '')` for each `p`). -/
def blockLine (b : List Char) : List Char :=
  ((stripNL b).map (fun c => if c = '\n' then ' ' else c)).filter
    (fun c => decide (c ∉ punct))

/-- One processed block: `file[ix] = text + '\n'`. -/
def processBlock (b : List Char) : List Char := blockLine b ++ ['\n']

/-- Python `s.strip()`: whitespace removed from both ends. -/
def stripWS (s : List Char) : List Char :=
  ((s.dropWhile Char.isWhitespace).reverse.dropWhile Char.isWhitespace).reverse

/-- The tail of the cleaning pipeline, from the block list after
header/footer removal to the final text: drop blocks equal to the empty
string, process each block, join, and strip (`''.join(file).strip()`). -/
def cleanBlocks (blocks : List (List Char)) : List Char :=
  stripWS (List.flatten ((blocks.filter (fun b => decide (¬ b = []))).map processBlock))

/-- The whole cleaning pipeline of `PGalyzer.__init__` with
`clean_pg=True`, from raw text to the `text` attribute. -/
def cleanPG (s : List Char) : List Char :=
  cleanBlocks (dropFooter (dropHeader (splitPara (lowerStr s))))

/-- Python `s.rstrip()`-like final step: only trailing whitespace
removed.  Modelled from the spec's step 7 ("strip trailing whitespace
from the whole body") for comparison with the code's `strip()`. -/
def stripWSRight (s : List Char) : List Char :=
  (s.reverse.dropWhile Char.isWhitespace).reverse

/-- The cleaning pipeline as the spec words step 7: identical to
`cleanPG` except that the final strip removes only trailing whitespace. -/
def cleanBlocksSpec (blocks : List (List Char)) : List Char :=
  stripWSRight (List.flatten ((blocks.filter (fun b => decide (¬ b = []))).map processBlock))

/-- `cleanPG` with the spec's step 7 in place of the code's. -/
def cleanPGSpec (s : List Char) : List Char :=
  cleanBlocksSpec (dropFooter (dropHeader (splitPara (lowerStr s))))

/-! ## Frequency engine: `PGalyzer.ngrams` and `PGalyzer.word_count` -/

/-- The inner loop of `ngrams` on one line's token list: for each start
index, while at least `n` tokens remain, emit the join of the next `n`
tokens; the loop breaks as soon as fewer than `n` remain (`if i+n >
len(words_all): break`). -/
def lineNgrams (n : Nat) : List (List Char) → List (List Char)
  | [] => []
  | w :: rest =>
      if n ≤ rest.length + 1 then joinSpace ((w :: rest).take n) :: lineNgrams n rest
      else []

/-- The full n-gram list of `PGalyzer.ngrams`: per line of `self.text`,
all n-token windows.  The returned `Counter` is determined by this
list via `List.count`. -/
def ngramsList (text : List Char) (n : Nat) : List (List Char) :=
  (splitOnNL text).flatMap (fun line => lineNgrams n (splitWS line))

/-- The token list of `PGalyzer.word_count`: `self.text.split()`.  The
returned `Counter` is determined by this list via `List.count`. -/
def wordCountTokens (text : List Char) : List (List Char) := splitWS text

/-! ## Concordance engine -/

/-- `string_before` of one match: `' '.join(items[backward_index:i])`
with `backward_index = 0 if i - neighborhood_size < 0 else i - ns`
(which is natural subtraction `i - ns`). -/
def windowBefore (items : List (List Char)) (ns i : Nat) : List Char :=
  joinSpace ((items.drop (i - ns)).take (i - (i - ns)))

/-- `string_after` of one match: `' '.join(items[i+1:i+ns+1])`; the
slice stops at line end. -/
def windowAfter (items : List (List Char)) (ns i : Nat) : List Char :=
  joinSpace ((items.drop (i + 1)).take ns)

/-- `PGalyzer.concordance`: per line, the match indices are
`[i for i, s in enumerate(items) if word == s]`, and each match yields
the pair `(string_before, string_after)`. -/
def concordance (word : List Char) (ns : Nat) (text : List Char) :
    List (List Char × List Char) :=
  (splitOnNL text).flatMap (fun line =>
    (((splitWS line).enum.filter (fun p => decide (word = p.2))).map
      (fun p => (windowBefore (splitWS line) ns p.1,
                 windowAfter (splitWS line) ns p.1))))

/-- `string_before` as the spec words it: `backward_index =
max(0, i - neighborhood_size)` computed over the integers. -/
def windowBeforeSpec (items : List (List Char)) (ns i : Nat) : List Char :=
  joinSpace ((items.drop (max 0 ((i : Int) - (ns : Int))).toNat).take
    (i - (max 0 ((i : Int) - (ns : Int))).toNat))

/-- `string_after` as the spec words it: `forward_index = i + ns + 1`,
slice `tokens[i+1 : forward_index]`. -/
def windowAfterSpec (items : List (List Char)) (ns i : Nat) : List Char :=
  joinSpace ((items.drop (i + 1)).take ((i + ns + 1) - (i + 1)))

/-- The concordance as the spec words it (same iteration order, windows
from `windowBeforeSpec`/`windowAfterSpec`). -/
def concordanceSpec (word : List Char) (ns : Nat) (text : List Char) :
    List (List Char × List Char) :=
  (splitOnNL text).flatMap (fun line =>
    (((splitWS line).enum.filter (fun p => decide (word = p.2))).map
      (fun p => (windowBeforeSpec (splitWS line) ns p.1,
                 windowAfterSpec (splitWS line) ns p.1))))

/-- `PGalyzer.display_concordance`.  With an empty concordance the
Python code raises (`list(zip(*concordance))[0]` is an `IndexError`),
modelled as `none`.  Otherwise `space` is the maximum `string_before`
length, each row is padding + before + ' <b>' + word + '</b> ' + after,
the first row gets `'<pre>'` prepended, the last `'</pre>'` appended,
and the rows are joined with newlines. -/
def display_concordance (word : List Char) (ns : Nat) (text : List Char) :
    Option (List Char) :=
  let conc := concordance word ns text
  match conc with
  | [] => none
  | _ =>
    let space := (conc.map (fun e => e.1.length)).foldl max 0
    let rows := conc.map (fun e =>
      List.replicate (space - e.1.length) ' ' ++ e.1 ++ [' ']
        ++ "<b>".toList ++ word ++ "</b>".toList ++ [' '] ++ e.2)
    let rows :=
      match rows with
      | [] => []
      | r :: rs => ("<pre>".toList ++ r) :: rs
    let rows :=
      match rows.reverse with
      | [] => []
      | r :: rs => (rs.reverse) ++ [r ++ "</pre>".toList]
    some (List.intercalate ['\n'] rows)

/-! ## Prediction engine: `likely_next` / `likely_previous` -/

/-- All adjacent token pairs `(words[i], words[i+1])`, per line. -/
def neighborPairs (text : List Char) : List (List Char × List Char) :=
  (splitOnNL text).flatMap (fun line => (splitWS line).zip (splitWS line).tail)

/-- The successor observations of `w`: the value `new_dict[w]` built by
`likely_next` (`new_dict[words[index]] += [words[index + 1]]`). -/
def succOccurrences (text w : List Char) : List (List Char) :=
  ((neighborPairs text).filter (fun p => decide (p.1 = w))).map (fun p => p.2)

/-- The predecessor observations of `w`: the value `new_dict[w]` built by
`likely_previous` (`new_dict[words[index]] += [words[index - 1]]`). -/
def predOccurrences (text w : List Char) : List (List Char) :=
  ((neighborPairs text).filter (fun p => decide (p.2 = w))).map (fun p => p.1)

/-- Distinct elements in order of first occurrence: the key order of a
Python `dict`/`Counter` built by insertion. -/
def firstDedupAux (seen : List (List Char)) : List (List Char) → List (List Char)
  | [] => []
  | a :: l =>
      if a ∈ seen then firstDedupAux seen l
      else a :: firstDedupAux (a :: seen) l

/-- `Counter(l).items()` as an association list: distinct elements in
first-occurrence order, each with its multiplicity. -/
def counterItems (l : List (List Char)) : List (List Char × Nat) :=
  (firstDedupAux [] l).map (fun k => (k, l.count k))

/-- The order of `Counter.most_common()`: count descending, a stable
sort of the insertion order. -/
def countGE (a b : List Char × Nat) : Prop := b.2 ≤ a.2

/-- The sort key `lambda i: (-i[1], i[0])` of the prediction engine:
count descending, ties by case-sensitive lexicographic token order. -/
def rankLE (a b : List Char × Nat) : Prop :=
  b.2 < a.2 ∨ (a.2 = b.2 ∧ a.1 ≤ b.1)

instance : DecidableRel countGE := fun a b => by
  unfold countGE; exact inferInstance

instance : DecidableRel rankLE := fun a b => by
  unfold rankLE; exact inferInstance

/-- `sorted(Counter(occ).most_common(), key=lambda i: (-i[1], i[0]))`:
both Python sorts are stable, modelled by `List.insertionSort` (which
is stable). -/
def rankOcc (occ : List (List Char)) : List (List Char × Nat) :=
  List.insertionSort rankLE (List.insertionSort countGE (counterItems occ))

/-- `PGalyzer.likely_next`: `count_dict[word][:n]`, where the lookup
raises `KeyError` (modelled as `none`) when `word` is not a key of the
successor table. -/
def likely_next (text w : List Char) (n : Nat) : Option (List (List Char × Nat)) :=
  if succOccurrences text w = [] then none
  else some ((rankOcc (succOccurrences text w)).take n)

/-- `PGalyzer.likely_previous`: `count_dict[word][:n]` over the
predecessor table, `KeyError` modelled as `none`. -/
def likely_previous (text w : List Char) (n : Nat) : Option (List (List Char × Nat)) :=
  if predOccurrences text w = [] then none
  else some ((rankOcc (predOccurrences text w)).take n)

/-- `w` occupies a non-last position of some line of `text`: the
successor table of `likely_next` has `w` as a key. -/
def appearsNonLast (text w : List Char) : Prop :=
  ∃ line ∈ splitOnNL text, ∃ i : Nat, ∃ y : List Char,
    (splitWS line)[i]? = some w ∧ (splitWS line)[i + 1]? = some y

/-- `w` occupies a non-first position of some line of `text`: the
predecessor table of `likely_previous` has `w` as a key. -/
def appearsNonFirst (text w : List Char) : Prop :=
  ∃ line ∈ splitOnNL text, ∃ i : Nat, ∃ y : List Char,
    (splitWS line)[i]? = some y ∧ (splitWS line)[i + 1]? = some w

/-! ## CLI presentation ranking for n-grams -/

/-- The CLI sort key `lambda x: (-x[1], x[0].lower())`: count
descending, ties by case-insensitive lexicographic order (non-strict). -/
def presLE (a b : List Char × Nat) : Prop :=
  b.2 < a.2 ∨ (a.2 = b.2 ∧ lowerStr a.1 ≤ lowerStr b.1)

/-- The strict part of the CLI presentation rule: the order it
actually determines between two entries. -/
def presLT (a b : List Char × Nat) : Prop :=
  b.2 < a.2 ∨ (a.2 = b.2 ∧ lowerStr a.1 < lowerStr b.1)

instance : DecidableRel presLE := fun a b => by
  unfold presLE; exact inferInstance

instance : DecidableRel presLT := fun a b => by
  unfold presLT; exact inferInstance

/-- The `ngrams` CLI command's reported sequence:
`sorted(counts.most_common(), key=lambda x: (-x[1], x[0].lower()))`,
both sorts stable. -/
def ngramsCLI (text : List Char) (n : Nat) : List (List Char × Nat) :=
  List.insertionSort presLE
    (List.insertionSort countGE (counterItems (ngramsList text n)))

/-! ## Helper lemmas -/

theorem joinSpace_singleton (w : List Char) : joinSpace [w] = w := by
  simp [joinSpace, List.intercalate]

theorem lineNgrams_one : ∀ ws : List (List Char), lineNgrams 1 ws = ws := by
  intro ws
  induction ws with
  | nil => rfl
  | cons w rest ih =>
      rw [lineNgrams, if_pos (by omega)]
      simp [joinSpace_singleton, ih]

theorem length_lineNgrams {n : Nat} (hn : 1 ≤ n) :
    ∀ ws : List (List Char), (lineNgrams n ws).length = ws.length + 1 - n := by
  intro ws
  induction ws with
  | nil => simp [lineNgrams]; omega
  | cons w rest ih =>
      by_cases h : n ≤ rest.length + 1
      · rw [lineNgrams, if_pos h]
        simp only [List.length_cons, ih]
        omega
      · rw [lineNgrams, if_neg h]
        simp only [List.length_cons, List.length_nil]
        omega

theorem lineNgrams_short {n : Nat} :
    ∀ ws : List (List Char), ws.length < n → lineNgrams n ws = [] := by
  intro ws h
  cases ws with
  | nil => rfl
  | cons w rest =>
      rw [lineNgrams, if_neg]
      simp at h
      omega

theorem sum_count_toFinset (l : List (List Char)) :
    ∑ g ∈ l.toFinset, l.count g = l.length := by
  have hcount : ∀ (x : List Char) (m : List (List Char)),
      @List.count _ List.instBEq x m = @List.count _ instBEqOfDecidableEq x m := by
    intro x m
    induction m with
    | nil => rfl
    | cons b t ih => simp [List.count_cons, ih]
  have h := Multiset.toFinset_sum_count_eq (l : Multiset (List Char))
  rw [Multiset.coe_card] at h
  rw [← h]
  apply Finset.sum_congr rfl
  intro x _
  rw [hcount]
  exact (Multiset.coe_count x l).symm

theorem splitOnNLAux_nil (acc : List Char) :
    splitOnNLAux acc [] = [acc.reverse] := rfl

theorem splitOnNLAux_cons (acc : List Char) (c : Char) (l : List Char) :
    splitOnNLAux acc (c :: l) =
      if c = '\n' then acc.reverse :: splitOnNLAux [] l
      else splitOnNLAux (c :: acc) l := rfl

theorem splitWSAux_nil (acc : List Char) :
    splitWSAux acc [] = if acc = [] then [] else [acc.reverse] := rfl

theorem splitWSAux_cons (acc : List Char) (c : Char) (l : List Char) :
    splitWSAux acc (c :: l) =
      if c.isWhitespace then
        if acc = [] then splitWSAux [] l else acc.reverse :: splitWSAux [] l
      else splitWSAux (c :: acc) l := rfl

theorem splitOnNLAux_ne_nil : ∀ (s acc : List Char), splitOnNLAux acc s ≠ [] := by
  intro s
  induction s with
  | nil => intro acc; simp [splitOnNLAux_nil]
  | cons c rest ih =>
      intro acc
      rw [splitOnNLAux_cons]
      by_cases h : c = '\n'
      · simp [h]
      · simp only [h, if_false]
        exact ih (c :: acc)

theorem intercalate_splitOnNLAux :
    ∀ (s : List Char) (acc : List Char),
      List.intercalate ['\n'] (splitOnNLAux acc s) = acc.reverse ++ s := by
  intro s
  induction s with
  | nil => intro acc; simp [splitOnNLAux_nil, List.intercalate]
  | cons c rest ih =>
      intro acc
      rw [splitOnNLAux_cons]
      by_cases h : c = '\n'
      · subst h
        rw [if_pos rfl]
        have hne : ∀ (a : List Char) (b : List (List Char)),
            List.intercalate (['\n'] : List Char) (a :: b) =
            a ++ (if b = [] then [] else '\n' :: List.intercalate ['\n'] b) := by
          intro a b
          cases b with
          | nil => simp [List.intercalate]
          | cons x xs => simp [List.intercalate, List.intersperse]
        rw [hne, if_neg (splitOnNLAux_ne_nil rest []), ih]
        simp
      · rw [if_neg h, ih]
        simp

theorem intercalate_splitOnNL (s : List Char) :
    List.intercalate ['\n'] (splitOnNL s) = s := by
  simpa using intercalate_splitOnNLAux s []

theorem splitWSAux_append_ws {c : Char} (hc : c.isWhitespace = true) :
    ∀ (a : List Char) (acc b : List Char),
      splitWSAux acc (a ++ c :: b) = splitWSAux acc a ++ splitWSAux [] b := by
  intro a
  induction a with
  | nil =>
      intro acc b
      by_cases h : acc = []
      · subst h; simp [splitWSAux_cons, splitWSAux_nil, hc]
      · simp [splitWSAux_cons, splitWSAux_nil, hc, h]
  | cons d a' ih =>
      intro acc b
      rw [List.cons_append, splitWSAux_cons, splitWSAux_cons]
      by_cases hd : d.isWhitespace
      · rw [if_pos hd, if_pos hd]
        by_cases h : acc = []
        · rw [if_pos h, if_pos h, ih]
        · rw [if_neg h, if_neg h, ih, List.cons_append]
      · rw [if_neg hd, if_neg hd, ih]

theorem splitWS_intercalate :
    ∀ segs : List (List Char),
      splitWS (List.intercalate ['\n'] segs) = segs.flatMap splitWS := by
  intro segs
  induction segs with
  | nil => simp [List.intercalate, splitWS, splitWSAux]
  | cons s rest ih =>
      cases rest with
      | nil => simp [List.intercalate]
      | cons s2 rest2 =>
          have h : List.intercalate (['\n'] : List Char) (s :: s2 :: rest2) =
              s ++ '\n' :: List.intercalate ['\n'] (s2 :: rest2) := by
            simp [List.intercalate, List.intersperse]
          rw [h]
          show splitWSAux [] (s ++ '\n' :: List.intercalate ['\n'] (s2 :: rest2)) = _
          rw [splitWSAux_append_ws (by decide) s []]
          rw [List.flatMap_cons]
          exact congrArg (splitWS s ++ ·) ih

theorem splitWS_flatMap_lines (text : List Char) :
    (splitOnNL text).flatMap splitWS = splitWS text := by
  conv_rhs => rw [← intercalate_splitOnNL text]
  exact (splitWS_intercalate (splitOnNL text)).symm

/-! ## Claim theorems: frequency engine -/

/-- Claim C7: `word_counts(document)` equals `ngram_counts(document, 1)`:
the whole-text whitespace split of `word_count` yields exactly the same
token sequence (hence the same multiset and count mapping) as the
per-line n-gram construction with n = 1. -/
theorem word_count_eq_unigram_counts (text : List Char) :
    ngramsList text 1 = wordCountTokens text ∧
    ∀ g : List Char, (wordCountTokens text).count g = (ngramsList text 1).count g := by
  have h : ngramsList text 1 = wordCountTokens text := by
    unfold ngramsList wordCountTokens
    have h1 : (fun line => lineNgrams 1 (splitWS line)) = splitWS := by
      funext line; exact lineNgrams_one (splitWS line)
    rw [h1, splitWS_flatMap_lines]
  exact ⟨h, fun g => by rw [h]⟩

/-- Claim C3: for every document and every n ≥ 1, the sum of all counts
in the n-gram counter equals the number of valid n-length windows
across all lines (per line, `length + 1 - n` in truncated subtraction,
i.e. `max(0, length - n + 1)`); lines with fewer than n tokens
contribute nothing. -/
theorem ngram_counts_total_windows (text : List Char) (n : Nat) (hn : 1 ≤ n) :
    (∑ g ∈ (ngramsList text n).toFinset, (ngramsList text n).count g) =
      ((splitOnNL text).map (fun line => (splitWS line).length + 1 - n)).sum ∧
    ∀ ws : List (List Char), ws.length < n → lineNgrams n ws = [] := by
  constructor
  · rw [sum_count_toFinset]
    unfold ngramsList
    rw [List.length_flatMap]
    refine congrArg List.sum (List.map_congr_left ?_)
    intro line _
    exact length_lineNgrams hn (splitWS line)
  · exact fun ws h => lineNgrams_short ws h

/-- Witness for C3 at the document "a b c\nd" with n = 2: the line
token lengths are 3 and 1, giving 2 + 0 valid windows. -/
theorem ngram_counts_total_windows_witness :
    (∑ g ∈ (ngramsList ("a b c\nd".toList) 2).toFinset,
        (ngramsList ("a b c\nd".toList) 2).count g) =
      ((splitOnNL ("a b c\nd".toList)).map
        (fun line => (splitWS line).length + 1 - 2)).sum ∧
    ∀ ws : List (List Char), ws.length < 2 → lineNgrams 2 ws = [] :=
  ngram_counts_total_windows ("a b c\nd".toList) 2 (by decide)

/-! ## Claim theorems: concordance engine -/

theorem max0_toNat_sub (i ns : Nat) :
    (max 0 ((i : Int) - (ns : Int))).toNat = i - ns := by omega

theorem windowBeforeSpec_eq (items : List (List Char)) (ns i : Nat) :
    windowBeforeSpec items ns i = windowBefore items ns i := by
  unfold windowBeforeSpec windowBefore
  rw [max0_toNat_sub]

theorem windowAfterSpec_eq (items : List (List Char)) (ns i : Nat) :
    windowAfterSpec items ns i = windowAfter items ns i := by
  unfold windowAfterSpec windowAfter
  have h : (i + ns + 1) - (i + 1) = ns := by omega
  rw [h]

theorem length_filter_enumFrom (word : List Char) :
    ∀ (l : List (List Char)) (k : Nat),
      ((List.enumFrom k l).filter (fun p => decide (word = p.2))).length =
        l.count word := by
  intro l
  induction l with
  | nil => intro k; simp
  | cons a t ih =>
      intro k
      rw [List.enumFrom_cons, List.filter_cons]
      by_cases h : word = a
      · subst h
        simp [ih, List.count_cons]
      · have h2 : a ≠ word := fun he => h he.symm
        simp [h, h2, ih, List.count_cons]

/-- Claim C4: the concordance agrees with the spec's window formulas
(`backward_index = max(0, i - ns)` over the integers, slices joined by
single spaces, truncation at line end), produces one window per
occurrence in line order then left-to-right order, yields an empty
`tokens-before` for an occurrence at index 0, and yields exactly
`ns` tokens on each side for an interior occurrence. -/
theorem concordance_windows_spec (text word : List Char) (ns : Nat) :
    concordance word ns text = concordanceSpec word ns text ∧
    (concordance word ns text).length =
      ((splitOnNL text).map (fun line => (splitWS line).count word)).sum ∧
    (∀ items : List (List Char), windowBefore items ns 0 = []) ∧
    (∀ (items : List (List Char)) (i : Nat), ns ≤ i → i + ns + 1 < items.length →
      ((items.drop (i - ns)).take (i - (i - ns))).length = ns ∧
      ((items.drop (i + 1)).take ns).length = ns) := by
  refine ⟨?_, ?_, ?_, ?_⟩
  · unfold concordance concordanceSpec
    simp only [windowBeforeSpec_eq, windowAfterSpec_eq]
  · unfold concordance
    rw [List.length_flatMap]
    refine congrArg List.sum (List.map_congr_left ?_)
    intro line _
    simp only [Function.comp, List.length_map, List.enum]
    exact length_filter_enumFrom word (splitWS line) 0
  · intro items
    unfold windowBefore
    simp [joinSpace, List.intercalate]
  · intro items i h1 h2
    constructor
    · rw [List.length_take, List.length_drop]
      omega
    · rw [List.length_take, List.length_drop]
      omega

/-- Witness for C4: the document "x y a b" with word "a" and
neighborhood 1; the occurrence sits at index 2, interior for ns = 1
in the 4-token line "q w e r t" at index 2. -/
theorem concordance_windows_spec_witness :
    concordance ("a".toList) 1 ("x y a b".toList) =
      concordanceSpec ("a".toList) 1 ("x y a b".toList) ∧
    ((["q".toList, "w".toList, "e".toList, "r".toList, "t".toList].drop (2 - 1)).take
        (2 - (2 - 1))).length = 1 ∧
    ((["q".toList, "w".toList, "e".toList, "r".toList, "t".toList].drop (2 + 1)).take
        1).length = 1 :=
  ⟨(concordance_windows_spec ("x y a b".toList) ("a".toList) 1).1,
   (concordance_windows_spec ("x y a b".toList) ("a".toList) 1).2.2.2
     ["q".toList, "w".toList, "e".toList, "r".toList, "t".toList] 2
     (by decide) (by decide)⟩

/-- Claim C5 (code bug): with an empty concordance result the Python
code crashes (`list(zip(*concordance))[0]` raises `IndexError`) rather
than returning normally with a zero width; modelled as `none`.  The
word "z" does not occur in the document "a b". -/
theorem display_concordance_empty_crash :
    display_concordance ("z".toList) 10 ("a b".toList) = none ∧
    concordance ("z".toList) 10 ("a b".toList) = [] := by
  constructor
  · rfl
  · rfl

/-! ## Claim theorems: prediction engine -/

instance : IsTotal (List Char × Nat) rankLE :=
  ⟨fun a b => by
    unfold rankLE
    rcases Nat.lt_trichotomy a.2 b.2 with h | h | h
    · exact Or.inr (Or.inl h)
    · rcases le_total a.1 b.1 with hl | hl
      · exact Or.inl (Or.inr ⟨h, hl⟩)
      · exact Or.inr (Or.inr ⟨h.symm, hl⟩)
    · exact Or.inl (Or.inl h)⟩

instance : IsTrans (List Char × Nat) rankLE :=
  ⟨fun a b c hab hbc => by
    unfold rankLE at hab hbc ⊢
    rcases hab with h1 | ⟨h1, h1'⟩ <;> rcases hbc with h2 | ⟨h2, h2'⟩
    · exact Or.inl (by omega)
    · exact Or.inl (by omega)
    · exact Or.inl (by omega)
    · exact Or.inr ⟨by omega, le_trans h1' h2'⟩⟩

instance : IsTotal (List Char × Nat) countGE :=
  ⟨fun a b => Nat.le_total b.2 a.2⟩

instance : IsTrans (List Char × Nat) countGE :=
  ⟨fun _ _ _ hab hbc => le_trans hbc hab⟩

instance : IsTotal (List Char × Nat) presLE :=
  ⟨fun a b => by
    unfold presLE
    rcases Nat.lt_trichotomy a.2 b.2 with h | h | h
    · exact Or.inr (Or.inl h)
    · rcases le_total (lowerStr a.1) (lowerStr b.1) with hl | hl
      · exact Or.inl (Or.inr ⟨h, hl⟩)
      · exact Or.inr (Or.inr ⟨h.symm, hl⟩)
    · exact Or.inl (Or.inl h)⟩

instance : IsTrans (List Char × Nat) presLE :=
  ⟨fun a b c hab hbc => by
    unfold presLE at hab hbc ⊢
    rcases hab with h1 | ⟨h1, h1'⟩ <;> rcases hbc with h2 | ⟨h2, h2'⟩
    · exact Or.inl (by omega)
    · exact Or.inl (by omega)
    · exact Or.inl (by omega)
    · exact Or.inr ⟨by omega, le_trans h1' h2'⟩⟩

theorem mem_zip_tail {α : Type} (ws : List α) (x y : α) :
    (x, y) ∈ ws.zip ws.tail ↔ ∃ i : Nat, ws[i]? = some x ∧ ws[i + 1]? = some y := by
  induction ws with
  | nil => simp
  | cons a l ih =>
      cases l with
      | nil => simp
      | cons b t =>
          rw [show (a :: b :: t).tail = b :: t from rfl, List.zip_cons_cons,
            List.mem_cons]
          constructor
          · rintro (h | h)
            · refine ⟨0, ?_, ?_⟩
              · simp [(Prod.mk.injEq .. ▸ h).1]
              · simp [(Prod.mk.injEq .. ▸ h).2]
            · have h2 := (ih.mp (by simpa using h))
              rcases h2 with ⟨i, hi1, hi2⟩
              exact ⟨i + 1, by simpa using hi1, by simpa using hi2⟩
          · rintro ⟨i, hi1, hi2⟩
            cases i with
            | zero =>
                left
                simp at hi1 hi2
                simp [hi1, hi2]
            | succ j =>
                right
                have : (x, y) ∈ (b :: t).zip ((b :: t).tail) := by
                  apply ih.mpr
                  exact ⟨j, by simpa using hi1, by simpa using hi2⟩
                simpa using this

theorem succOccurrences_eq_nil (text w : List Char) :
    succOccurrences text w = [] ↔ ¬ appearsNonLast text w := by
  unfold succOccurrences appearsNonLast
  rw [List.map_eq_nil_iff, List.filter_eq_nil_iff]
  constructor
  · intro h ⟨line, hline, i, y, h1, h2⟩
    exact h (w, y) (by
      rw [neighborPairs, List.mem_flatMap]
      exact ⟨line, hline, (mem_zip_tail _ _ _).mpr ⟨i, h1, h2⟩⟩) (by simp)
  · intro h p hp hdec
    apply h
    rw [neighborPairs, List.mem_flatMap] at hp
    rcases hp with ⟨line, hline, hmem⟩
    have hw : p.1 = w := by simpa using hdec
    rcases (mem_zip_tail (splitWS line) p.1 p.2).mp (by simpa using hmem) with
      ⟨i, h1, h2⟩
    exact ⟨line, hline, i, p.2, hw ▸ h1, h2⟩

theorem predOccurrences_eq_nil (text w : List Char) :
    predOccurrences text w = [] ↔ ¬ appearsNonFirst text w := by
  unfold predOccurrences appearsNonFirst
  rw [List.map_eq_nil_iff, List.filter_eq_nil_iff]
  constructor
  · intro h ⟨line, hline, i, y, h1, h2⟩
    exact h (y, w) (by
      rw [neighborPairs, List.mem_flatMap]
      exact ⟨line, hline, (mem_zip_tail _ _ _).mpr ⟨i, h1, h2⟩⟩) (by simp)
  · intro h p hp hdec
    apply h
    rw [neighborPairs, List.mem_flatMap] at hp
    rcases hp with ⟨line, hline, hmem⟩
    have hw : p.2 = w := by simpa using hdec
    rcases (mem_zip_tail (splitWS line) p.1 p.2).mp (by simpa using hmem) with
      ⟨i, h1, h2⟩
    exact ⟨line, hline, i, p.1, h1, hw ▸ h2⟩

theorem length_rankOcc (occ : List (List Char)) :
    (rankOcc occ).length = (counterItems occ).length := by
  unfold rankOcc
  rw [(List.perm_insertionSort rankLE _).length_eq,
    (List.perm_insertionSort countGE _).length_eq]

theorem counterItems_ne_nil {occ : List (List Char)} (h : occ ≠ []) :
    counterItems occ ≠ [] := by
  unfold counterItems
  rw [Ne, List.map_eq_nil_iff]
  cases occ with
  | nil => exact absurd rfl h
  | cons a l =>
      rw [firstDedupAux, if_neg (by simp)]
      simp

/-- Claim C1: `likely_next` raises (is `none`) exactly when the word
never occupies a non-last position of any line, and `likely_previous`
raises exactly when it never occupies a non-first position; a word that
is present in the relevant table never yields an error and never a
silent empty list — it yields a list whose length is the number of its
distinct observed neighbours capped at `n` (shorter than `n` when there
are fewer neighbours). -/
theorem likely_lookup_not_found_iff (text w : List Char) (n : Nat) (hn : 1 ≤ n) :
    (likely_next text w n = none ↔ ¬ appearsNonLast text w) ∧
    (likely_previous text w n = none ↔ ¬ appearsNonFirst text w) ∧
    (appearsNonLast text w → ∃ l, likely_next text w n = some l ∧ l ≠ [] ∧
      l.length = min n (counterItems (succOccurrences text w)).length) ∧
    (appearsNonFirst text w → ∃ l, likely_previous text w n = some l ∧ l ≠ [] ∧
      l.length = min n (counterItems (predOccurrences text w)).length) := by
  refine ⟨?_, ?_, ?_, ?_⟩
  · unfold likely_next
    by_cases h : succOccurrences text w = []
    · simp [h, (succOccurrences_eq_nil text w).mp h]
    · have happ : appearsNonLast text w := by
        by_contra hc
        exact h ((succOccurrences_eq_nil text w).mpr hc)
      simp [h, happ]
  · unfold likely_previous
    by_cases h : predOccurrences text w = []
    · simp [h, (predOccurrences_eq_nil text w).mp h]
    · have happ : appearsNonFirst text w := by
        by_contra hc
        exact h ((predOccurrences_eq_nil text w).mpr hc)
      simp [h, happ]
  · intro happ
    have h : succOccurrences text w ≠ [] := by
      rw [Ne, succOccurrences_eq_nil]
      exact not_not_intro happ
    refine ⟨(rankOcc (succOccurrences text w)).take n, ?_, ?_, ?_⟩
    · unfold likely_next
      rw [if_neg h]
    · rw [← List.length_pos_iff_ne_nil, List.length_take, length_rankOcc]
      have := List.length_pos_iff_ne_nil.mpr (counterItems_ne_nil h)
      omega
    · rw [List.length_take, length_rankOcc]
  · intro happ
    have h : predOccurrences text w ≠ [] := by
      rw [Ne, predOccurrences_eq_nil]
      exact not_not_intro happ
    refine ⟨(rankOcc (predOccurrences text w)).take n, ?_, ?_, ?_⟩
    · unfold likely_previous
      rw [if_neg h]
    · rw [← List.length_pos_iff_ne_nil, List.length_take, length_rankOcc]
      have := List.length_pos_iff_ne_nil.mpr (counterItems_ne_nil h)
      omega
    · rw [List.length_take, length_rankOcc]

/-- Witness for C1 at the document "a b a" with word "a" and n = 1:
"a" occupies a non-last position, so the lookup succeeds; "a b a" has
one distinct successor of "a". -/
theorem likely_lookup_not_found_iff_witness :
    (likely_next ("a b a".toList) ("a".toList) 1 = none ↔
      ¬ appearsNonLast ("a b a".toList) ("a".toList)) ∧
    (likely_previous ("a b a".toList) ("a".toList) 1 = none ↔
      ¬ appearsNonFirst ("a b a".toList) ("a".toList)) ∧
    (appearsNonLast ("a b a".toList) ("a".toList) →
      ∃ l, likely_next ("a b a".toList) ("a".toList) 1 = some l ∧ l ≠ [] ∧
      l.length = min 1
        (counterItems (succOccurrences ("a b a".toList) ("a".toList))).length) ∧
    (appearsNonFirst ("a b a".toList) ("a".toList) →
      ∃ l, likely_previous ("a b a".toList) ("a".toList) 1 = some l ∧ l ≠ [] ∧
      l.length = min 1
        (counterItems (predOccurrences ("a b a".toList) ("a".toList))).length) :=
  likely_lookup_not_found_iff ("a b a".toList) ("a".toList) 1 (by decide)

/-- Claim C6: any list returned by `likely_next` or `likely_previous`
is sorted by count descending with ties broken by ascending
case-sensitive lexicographic order on the neighbour word, and has
length at most `n`. -/
theorem likely_ranking_sorted_bounded (text w : List Char) (n : Nat)
    (l : List (List Char × Nat))
    (h : likely_next text w n = some l ∨ likely_previous text w n = some l) :
    List.Sorted rankLE l ∧ l.length ≤ n := by
  have hmain : ∀ occ : List (List Char), List.Sorted rankLE ((rankOcc occ).take n) ∧
      ((rankOcc occ).take n).length ≤ n := by
    intro occ
    constructor
    · exact List.Pairwise.sublist (List.take_sublist n _)
        (List.sorted_insertionSort rankLE _)
    · rw [List.length_take]
      omega
  rcases h with h | h
  · unfold likely_next at h
    by_cases he : succOccurrences text w = []
    · rw [if_pos he] at h
      exact absurd h (by simp)
    · rw [if_neg he, Option.some_inj] at h
      exact h ▸ hmain _
  · unfold likely_previous at h
    by_cases he : predOccurrences text w = []
    · rw [if_pos he] at h
      exact absurd h (by simp)
    · rw [if_neg he, Option.some_inj] at h
      exact h ▸ hmain _

/-- Witness for C6 at the document "b a b a c" with word "a" and n = 5:
the successors of "a" are "b" and "c", each once, reported in
tie-broken lexicographic order. -/
theorem likely_ranking_sorted_bounded_witness :
    List.Sorted rankLE [("b".toList, 1), ("c".toList, 1)] ∧
    ([(("b".toList : List Char), 1), ("c".toList, 1)]).length ≤ 5 :=
  likely_ranking_sorted_bounded ("b a b a c".toList) ("a".toList) 5
    [("b".toList, 1), ("c".toList, 1)] (Or.inl (by decide))

/-! ## Claim theorems: CLI presentation ranking -/

/-- Counterexample for C8: in the document "A a" with n = 1 the two
reported unigram entries are distinct, yet the presentation rule
(count descending, ties by case-insensitive lexicographic order)
orders them in neither direction — the tie between case variants with
equal counts is not resolved by the stated rule. -/
theorem ngram_presentation_tie_counterexample :
    ("A".toList, 1) ∈ ngramsCLI ("A a".toList) 1 ∧
    ("a".toList, 1) ∈ ngramsCLI ("A a".toList) 1 ∧
    (("A".toList, 1) : List Char × Nat) ≠ ("a".toList, 1) ∧
    ¬ presLT ("A".toList, 1) ("a".toList, 1) ∧
    ¬ presLT ("a".toList, 1) ("A".toList, 1) := by
  refine ⟨by decide, by decide, by decide, ?_, ?_⟩
  · intro h
    rcases h with h | ⟨_, h⟩
    · exact absurd h (by decide)
    · exact absurd h (by decide)
  · intro h
    rcases h with h | ⟨_, h⟩
    · exact absurd h (by decide)
    · exact absurd h (by decide)

/-- Amended C8: the reported n-gram sequence is sorted by the
non-strict presentation order (count descending, then non-strict
case-insensitive lexicographic order); entries equal under both keys
remain tied and keep the stable underlying order. -/
theorem ngram_presentation_sorted (text : List Char) (n : Nat) :
    List.Sorted presLE (ngramsCLI text n) :=
  List.sorted_insertionSort presLE _

/-! ## Claim theorems: cleaning pipeline -/

theorem dropWhile_eq_self_of_all {p : Char → Bool} {l : List Char}
    (h : ∀ c ∈ l, p c = false) : l.dropWhile p = l := by
  cases l with
  | nil => rfl
  | cons a t =>
      rw [List.dropWhile_cons, if_neg]
      simp [h a (List.mem_cons_self a t)]

theorem map_eq_self_of_all {f : Char → Char} {l : List Char}
    (h : ∀ c ∈ l, f c = c) : l.map f = l := by
  induction l with
  | nil => rfl
  | cons a t ih =>
      rw [List.map_cons, h a (List.mem_cons_self a t),
        ih (fun c hc => h c (List.mem_cons_of_mem a hc))]

theorem splitParaAux_no_nl {s : List Char} (h : ∀ c ∈ s, ¬ c = '\n') :
    ∀ acc : List Char, splitParaAux acc s = [acc.reverse ++ s] := by
  induction s with
  | nil => intro acc; simp [splitParaAux]
  | cons c rest ih =>
      intro acc
      have hc : ¬ c = '\n' := h c (List.mem_cons_self c rest)
      cases rest with
      | nil => simp [splitParaAux]
      | cons c2 rest2 =>
          rw [splitParaAux, if_neg (fun hand => hc hand.1)]
          rw [ih (fun d hd => h d (List.mem_cons_of_mem c hd)) (c :: acc)]
          simp

/-- Counterexample for C2: the text "a\nb" is itself the output of
cleaning (of the raw input "a\n\nb"), yet re-cleaning it yields "a b":
the block split looks for blank lines, so the single newlines of a
cleaned multi-line body are collapsed to spaces, not preserved. -/
theorem clean_not_idempotent_counterexample :
    cleanPG ("a\n\nb".toList) = "a\nb".toList ∧
    cleanPG (cleanPG ("a\n\nb".toList)) = "a b".toList ∧
    cleanPG (cleanPG ("a\n\nb".toList)) ≠ cleanPG ("a\n\nb".toList) := by
  refine ⟨by decide, by decide, by decide⟩

/-- Amended C2: cleaning is idempotent exactly on single-line cleaned
bodies.  Any text that is lowercase-invariant, contains no newline and
no punctuation-set character, has no leading or trailing whitespace,
and does not start with a boilerplate marker is a fixed point of the
cleaning pipeline; every single-line output of cleaning has these
properties, while multi-line outputs are not fixed points (their
newlines become spaces, as in the counterexample). -/
theorem clean_idempotent_single_line (t : List Char)
    (h1 : ∀ c ∈ t, Char.toLower c = c)
    (h2 : ∀ c ∈ t, ¬ c = '\n')
    (h3 : ∀ c ∈ t, c ∉ punct)
    (h4 : headMarker.isPrefixOf t = false)
    (h5 : footMarker.isPrefixOf t = false)
    (h6 : t.dropWhile Char.isWhitespace = t)
    (h7 : t.reverse.dropWhile Char.isWhitespace = t.reverse) :
    cleanPG t = t := by
  rcases eq_or_ne t [] with rfl | hne
  · decide
  unfold cleanPG
  have e1 : lowerStr t = t := map_eq_self_of_all h1
  rw [e1]
  have e2 : splitPara t = [t] := by
    unfold splitPara
    rw [splitParaAux_no_nl h2 []]
    rfl
  rw [e2]
  have e3 : dropHeader [t] = [t] := by
    unfold dropHeader
    rw [List.findIdx?_cons, if_neg (by simp [h4]), List.findIdx?_nil]
  rw [e3]
  have e4 : dropFooter [t] = [t] := by
    unfold dropFooter
    rw [List.reverse_singleton, List.findIdx?_cons, if_neg (by simp [h5]),
      List.findIdx?_nil]
  rw [e4]
  unfold cleanBlocks
  have e5 : ([t].filter (fun b => decide (¬ b = []))) = [t] := by
    simp [hne]
  rw [e5]
  have e6 : blockLine t = t := by
    unfold blockLine
    have s1 : stripNL t = t := by
      have d1 : t.dropWhile (fun c => decide (c = '\n')) = t :=
        dropWhile_eq_self_of_all (fun c hc => by simp [h2 c hc])
      have d2 : t.reverse.dropWhile (fun c => decide (c = '\n')) = t.reverse :=
        dropWhile_eq_self_of_all
          (fun c hc => by simp [h2 c (List.mem_reverse.mp hc)])
      unfold stripNL
      rw [d1, d2, List.reverse_reverse]
    rw [s1, map_eq_self_of_all (fun c hc => if_neg (h2 c hc))]
    rw [List.filter_eq_self.mpr]
    intro c hc
    simp [h3 c hc]
  have e7 : List.flatten ([t].map processBlock) = t ++ ['\n'] := by
    simp [processBlock, e6]
  rw [e7]
  unfold stripWS
  obtain ⟨a, t', rfl⟩ : ∃ a t', t = a :: t' := by
    cases t with
    | nil => exact absurd rfl hne
    | cons a t' => exact ⟨a, t', rfl⟩
  have ha : (a.isWhitespace : Bool) = false := by
    have := List.dropWhile_eq_self_iff.mp h6 (by simp)
    simpa using this
  rw [show (a :: t') ++ ['\n'] = a :: (t' ++ ['\n']) from rfl]
  rw [List.dropWhile_cons, if_neg (by simp [ha])]
  rw [show (a :: (t' ++ ['\n'])).reverse = '\n' :: (a :: t').reverse by simp]
  rw [List.dropWhile_cons, if_pos (by decide), h7, List.reverse_reverse]

/-- Witness for amended C2: the single-line cleaned body
"hello world" is a fixed point of the cleaning pipeline. -/
theorem clean_idempotent_single_line_witness :
    cleanPG ("hello world".toList) = "hello world".toList :=
  clean_idempotent_single_line ("hello world".toList) (by decide) (by decide)
    (by decide) (by decide) (by decide) (by decide) (by decide)

theorem head?_dropWhile_not {p : Char → Bool} :
    ∀ {l : List Char} {c : Char}, (l.dropWhile p).head? = some c → p c = false := by
  intro l
  induction l with
  | nil => intro c h; simp at h
  | cons a t ih =>
      intro c h
      rw [List.dropWhile_cons] at h
      by_cases hp : p a
      · exact ih (by rwa [if_pos hp] at h)
      · rw [if_neg hp, List.head?_cons, Option.some_inj] at h
        subst h
        exact Bool.not_eq_true _ ▸ hp

theorem getLast?_dropWhile {p : Char → Bool} {l : List Char}
    (h : l.dropWhile p ≠ []) : (l.dropWhile p).getLast? = l.getLast? := by
  conv_rhs => rw [← List.takeWhile_append_dropWhile p l]
  rw [List.getLast?_append]
  cases hl : (l.dropWhile p).getLast? with
  | none => exact absurd (List.getLast?_eq_none_iff.mp hl) h
  | some x => rfl

theorem stripWS_head_not_ws {t : List Char} {c : Char}
    (h : (stripWS t).head? = some c) : c.isWhitespace = false := by
  unfold stripWS at h
  rw [List.head?_reverse] at h
  have hne : (t.dropWhile Char.isWhitespace).reverse.dropWhile Char.isWhitespace ≠ [] := by
    intro he
    rw [he] at h
    simp at h
  rw [getLast?_dropWhile hne, List.getLast?_reverse] at h
  exact head?_dropWhile_not h

theorem stripWS_getLast_not_ws {t : List Char} {c : Char}
    (h : (stripWS t).getLast? = some c) : c.isWhitespace = false := by
  unfold stripWS at h
  rw [List.getLast?_reverse] at h
  exact head?_dropWhile_not h

/-- Counterexample for C9: on the raw input "  hi" the code's step 7
(`''.join(file).strip()`) strips the leading whitespace of the first
block as well, while the spec's step 7 (strip only trailing whitespace)
would preserve it: the two pipelines disagree on this input. -/
theorem clean_strip_leading_counterexample :
    cleanPG ("  hi".toList) = "hi".toList ∧
    cleanPGSpec ("  hi".toList) = "  hi".toList ∧
    cleanPG ("  hi".toList) ≠ cleanPGSpec ("  hi".toList) := by
  refine ⟨by decide, by decide, by decide⟩

/-- Amended C9: step 7 strips whitespace from both ends of the
re-joined body (Python `str.strip()`), so leading whitespace of the
first block is removed rather than preserved: the canonical cleaned
body never begins or ends with a whitespace character. -/
theorem clean_body_no_edge_whitespace (s : List Char) :
    (∀ c : Char, (cleanPG s).head? = some c → c.isWhitespace = false) ∧
    (∀ c : Char, (cleanPG s).getLast? = some c → c.isWhitespace = false) := by
  constructor
  · intro c h
    unfold cleanPG cleanBlocks at h
    exact stripWS_head_not_ws h
  · intro c h
    unfold cleanPG cleanBlocks at h
    exact stripWS_getLast_not_ws h

/-- Witness for amended C9: on the input "  hi" the cleaned body is
"hi", whose first character 'h' is not whitespace. -/
theorem clean_body_no_edge_whitespace_witness :
    ('h'.isWhitespace : Bool) = false :=
  (clean_body_no_edge_whitespace ("  hi".toList)).1 'h' (by decide)

theorem splitWS_all_ws {s : List Char}
    (h : ∀ c ∈ s, c.isWhitespace = true) : splitWS s = [] := by
  unfold splitWS
  induction s with
  | nil => rfl
  | cons a t ih =>
      rw [splitWSAux_cons, if_pos (h a (List.mem_cons_self a t)), if_pos rfl]
      exact ih (fun c hc => h c (List.mem_cons_of_mem a hc))

theorem mem_stripNL {c : Char} {b : List Char} (h : c ∈ stripNL b) : c ∈ b := by
  unfold stripNL at h
  rw [List.mem_reverse] at h
  have h2 := List.dropWhile_sublist (l := (b.dropWhile (fun c => decide (c = '\n'))).reverse) (p := fun c => decide (c = '\n'))
  have h3 := h2.subset h
  rw [List.mem_reverse] at h3
  exact (List.dropWhile_sublist _).subset h3

theorem blockLine_no_nl (b : List Char) : ∀ c ∈ blockLine b, ¬ c = '\n' := by
  intro c hc
  unfold blockLine at hc
  rw [List.mem_filter] at hc
  rcases List.mem_map.mp hc.1 with ⟨d, _, hdc⟩
  by_cases hdn : d = '\n'
  · rw [← hdc, if_pos hdn]
    decide
  · rw [← hdc, if_neg hdn]
    exact hdn

theorem dropWhile_append_of_exists {p : Char → Bool} :
    ∀ {x : List Char}, (∃ c ∈ x, p c = false) → ∀ y : List Char,
      (x ++ y).dropWhile p = x.dropWhile p ++ y := by
  intro x
  induction x with
  | nil =>
      rintro ⟨c, hc, _⟩
      simp at hc
  | cons a x' ih =>
      rintro ⟨c, hc, hpc⟩ y
      rw [List.cons_append, List.dropWhile_cons, List.dropWhile_cons]
      by_cases hpa : p a
      · rw [if_pos hpa, if_pos hpa]
        refine ih ⟨c, ?_, hpc⟩ y
        rcases List.mem_cons.mp hc with rfl | hc'
        · rw [hpa] at hpc
          exact absurd hpc (by simp)
        · exact hc'
      · rw [if_neg hpa, if_neg hpa, List.cons_append]

theorem splitOnNLAux_no_nl_append {v : List Char} (hv : ∀ c ∈ v, ¬ c = '\n')
    (C : List Char) :
    ∀ acc : List Char,
      splitOnNLAux acc (v ++ '\n' :: C) = (acc.reverse ++ v) :: splitOnNLAux [] C := by
  induction v with
  | nil =>
      intro acc
      rw [List.nil_append, splitOnNLAux_cons, if_pos rfl]
      simp
  | cons c v' ih =>
      intro acc
      rw [List.cons_append, splitOnNLAux_cons,
        if_neg (hv c (List.mem_cons_self c v')),
        ih (fun d hd => hv d (List.mem_cons_of_mem c hd)) (c :: acc)]
      simp

theorem splitOnNLAux_append_getLast_nl :
    ∀ A : List Char, A.getLast? = some '\n' →
      ∀ acc rest : List Char,
        ∃ pre, splitOnNLAux acc (A ++ rest) = pre ++ splitOnNLAux [] rest := by
  intro A
  induction A with
  | nil =>
      intro h
      simp at h
  | cons c A' ih =>
      intro h acc rest
      cases A' with
      | nil =>
          have hc : c = '\n' := by simpa using h
          subst hc
          rw [List.singleton_append, splitOnNLAux_cons, if_pos rfl]
          exact ⟨[acc.reverse], rfl⟩
      | cons d A'' =>
          have h' : (d :: A'').getLast? = some '\n' := by
            rwa [List.getLast?_cons_cons] at h
          rw [List.cons_append, splitOnNLAux_cons]
          by_cases hc : c = '\n'
          · rw [if_pos hc]
            rcases ih h' [] rest with ⟨pre, hpre⟩
            exact ⟨acc.reverse :: pre, by rw [hpre, List.cons_append]⟩
          · rw [if_neg hc]
            exact ih h' (c :: acc) rest

theorem flatten_processBlock_getLast :
    ∀ {l : List (List Char)}, l ≠ [] →
      (List.flatten (l.map processBlock)).getLast? = some '\n' := by
  intro l
  induction l with
  | nil => intro h; exact absurd rfl h
  | cons x xs ih =>
      intro _
      cases xs with
      | nil => simp [processBlock, List.getLast?_append]
      | cons y ys =>
          rw [List.map_cons, List.flatten_cons, List.getLast?_append,
            ih (by simp)]
          rfl

/-- Counterexample for C10: in the raw input "a\n\n..." the
punctuation-only paragraph block "..." survives the empty-block filter,
yet the canonical cleaned body is "a" and contains no empty or
whitespace-only line — the final strip() absorbs the block's line at
the trailing edge, so the claimed contribution to the body fails. -/
theorem punct_block_edge_counterexample :
    "...".toList ∈ splitPara (lowerStr ("a\n\n...".toList)) ∧
    ("...".toList : List Char) ≠ [] ∧
    (∀ c ∈ ("...".toList : List Char), c.isWhitespace = true ∨ c ∈ punct) ∧
    cleanPG ("a\n\n...".toList) = "a".toList ∧
    ∀ line ∈ splitOnNL (cleanPG ("a\n\n...".toList)), splitWS line ≠ [] := by
  refine ⟨by decide, by decide, by decide, by decide, by decide⟩

/-- Amended C10: the empty-block filter (which runs before punctuation
deletion) discards only blocks equal to the empty string, so a nonempty
block made solely of whitespace and/or punctuation characters survives
the filter, and its processed line consists of whitespace only and
tokenizes to the empty token list; when the block sits at an interior
position — the processed blocks before it and after it each contain a
non-whitespace character — that line appears as a line of the canonical
cleaned body (an edge-positioned block's line is instead absorbed by
the final strip, as in the counterexample). -/
theorem whitespace_punct_block_interior_line (b : List Char) (hne : b ≠ [])
    (hall : ∀ c ∈ b, c.isWhitespace = true ∨ c ∈ punct)
    (blocks1 blocks2 : List (List Char))
    (h1 : ∃ c ∈ List.flatten
        ((blocks1.filter (fun x => decide (¬ x = []))).map processBlock),
      c.isWhitespace = false)
    (h2 : ∃ c ∈ List.flatten
        ((blocks2.filter (fun x => decide (¬ x = []))).map processBlock),
      c.isWhitespace = false) :
    (∀ blocks : List (List Char), b ∈ blocks →
      b ∈ blocks.filter (fun x => decide (¬ x = []))) ∧
    (∀ c ∈ blockLine b, c.isWhitespace = true) ∧
    splitWS (blockLine b) = [] ∧
    blockLine b ∈ splitOnNL (cleanBlocks (blocks1 ++ b :: blocks2)) := by
  have hline : ∀ c ∈ blockLine b, c.isWhitespace = true := by
    intro c hc
    unfold blockLine at hc
    rw [List.mem_filter] at hc
    rcases hc with ⟨hmem, hnp⟩
    rw [List.mem_map] at hmem
    rcases hmem with ⟨d, hd, hdc⟩
    have hdb : d ∈ b := mem_stripNL hd
    rcases hall d hdb with hws | hpunct
    · by_cases hdn : d = '\n'
      · rw [← hdc, if_pos hdn]
        decide
      · rw [← hdc, if_neg hdn]
        exact hws
    · exfalso
      have hdn : ¬ d = '\n' := by
        intro he
        rw [he] at hpunct
        exact absurd hpunct (by decide)
      rw [← hdc, if_neg hdn] at hnp
      simp at hnp
      exact hnp hpunct
  refine ⟨?_, hline, splitWS_all_ws hline, ?_⟩
  · intro blocks hb
    rw [List.mem_filter]
    exact ⟨hb, by simp [hne]⟩
  · set P : List Char := List.flatten
      ((blocks1.filter (fun x => decide (¬ x = []))).map processBlock) with hP
    set S : List Char := List.flatten
      ((blocks2.filter (fun x => decide (¬ x = []))).map processBlock) with hS
    set C : List Char := (S.reverse.dropWhile Char.isWhitespace).reverse with hC
    have h2r : ∃ c ∈ S.reverse, c.isWhitespace = false := by
      rcases h2 with ⟨c, hc, hcw⟩
      exact ⟨c, List.mem_reverse.mpr hc, hcw⟩
    have hbody : cleanBlocks (blocks1 ++ b :: blocks2) =
        P.dropWhile Char.isWhitespace ++ (blockLine b ++ '\n' :: C) := by
      unfold cleanBlocks stripWS
      rw [List.filter_append, List.filter_cons, if_pos (by simp [hne]),
        List.map_append, List.flatten_append, List.map_cons, List.flatten_cons,
        ← hP]
      rw [dropWhile_append_of_exists h1, List.reverse_append,
        List.reverse_append, List.append_assoc,
        dropWhile_append_of_exists h2r, List.reverse_append,
        List.reverse_append, List.reverse_reverse, List.reverse_reverse]
      simp [processBlock, List.append_assoc, hC]
    rw [hbody]
    by_cases hA : P.dropWhile Char.isWhitespace = []
    · rw [hA, List.nil_append]
      unfold splitOnNL
      rw [splitOnNLAux_no_nl_append (blockLine_no_nl b) C []]
      simp
    · have hlast : (P.dropWhile Char.isWhitespace).getLast? = some '\n' := by
        rw [getLast?_dropWhile hA]
        apply flatten_processBlock_getLast
        intro he
        rcases h1 with ⟨c, hc, _⟩
        rw [he] at hP
        simp at hP
        rw [hP] at hc
        simp at hc
      unfold splitOnNL
      rcases splitOnNLAux_append_getLast_nl (P.dropWhile Char.isWhitespace)
        hlast [] (blockLine b ++ '\n' :: C) with ⟨pre, hpre⟩
      rw [hpre, splitOnNLAux_no_nl_append (blockLine_no_nl b) C []]
      simp

/-- Witness for amended C10: the punctuation-only block "..." between
the content blocks "a" and "b"; the body "a\n\nb" carries its empty
line. -/
theorem whitespace_punct_block_interior_line_witness :
    (∀ blocks : List (List Char), "...".toList ∈ blocks →
      "...".toList ∈ blocks.filter (fun x => decide (¬ x = []))) ∧
    (∀ c ∈ blockLine ("...".toList), c.isWhitespace = true) ∧
    splitWS (blockLine ("...".toList)) = [] ∧
    blockLine ("...".toList) ∈
      splitOnNL (cleanBlocks (["a".toList] ++ "...".toList :: ["b".toList])) :=
  whitespace_punct_block_interior_line ("...".toList) (by decide) (by decide)
    ["a".toList] ["b".toList] (by decide) (by decide)

end PG
